import Mathlib

/-!
Verification of the monocr-onnx core pipeline (Rust sources under `src/rust/src/`)
against its natural-language specification.

Shallow embedding conventions:
* `u8` pixels are `Fin 256`; `u32`/`usize` are `ℕ` (no overflow occurs in the
  modelled ranges); `i32` (the decoder's `prev_idx`) is `ℤ`.
* `f32`/`f64` arithmetic on logits, histograms and accuracy scores is embedded
  as exact rational arithmetic (`ℚ`).  The decode loop's comparison against the
  `f32::NEG_INFINITY` initial accumulator is modelled by unconditionally
  accepting the first class (any rational compares greater than `-∞`).
* `Rust`'s `f32::round`/`f64::round` (round half away from zero) is `f64Round`;
  on the non-negative values arising here it coincides with round-half-up.
* Arrays indexed in-bounds are modelled as total functions (`ℕ → ℚ` for the
  flattened logits buffer) or as `List` with `getD` (the default is only
  reachable out of the source's loop bounds).
-/

namespace Monocr

/-! ### Images (the `image` crate's `GrayImage`, as consumed by the core) -/

/-- An 8-bit grayscale image: dimensions plus a pixel accessor.
`pixel x y` models `GrayImage::get_pixel(x, y)[0]` for `x < width`, `y < height`. -/
structure GrayImage where
  width : ℕ
  height : ℕ
  pixel : ℕ → ℕ → Fin 256

/-! ### segmenter.rs -/

/-- `BBox` (segmenter.rs): rectangular region in pixel coordinates. -/
structure BBox where
  x : ℕ
  y : ℕ
  w : ℕ
  h : ℕ
deriving Repr, DecidableEq

/-- `LineSegment` (segmenter.rs): cropped line image plus its bounding box. -/
structure LineSegment where
  img : GrayImage
  bbox : BBox

/-- `LineSegmenter` (segmenter.rs): the two segmentation parameters. -/
structure LineSegmenter where
  min_line_height : ℕ
  smooth_window : ℕ
deriving Repr, DecidableEq

/-- Binarization (segmenter.rs line 125): a pixel is ink iff its intensity is
`< 128`; this is `binary[idx] == 1`. -/
def inkAt (img : GrayImage) (x y : ℕ) : Bool :=
  (img.pixel x y : ℕ) < 128

/-- One entry of the projection histogram (segmenter.rs lines 118–130):
`hist[y]` counts the ink pixels of row `y` (accumulated as `f32` in the source,
an exact natural count cast to `ℚ` here). -/
def histRow (img : GrayImage) (y : ℕ) : ℚ :=
  (((List.range img.width).filter (fun x => inkAt img x y)).length : ℚ)

/-- The projection histogram of a page, one entry per row. -/
def pageHist (img : GrayImage) : List ℚ :=
  (List.range img.height).map (histRow img)

/-- In-bounds window indices for `smooth_histogram` (segmenter.rs lines 218–223):
the source iterates `j` over `(i - half)..=(i + half)` (an `i32` range of
`2*half + 1` values) and keeps those with `0 ≤ j < height`. -/
def smoothWindowIdx (height half i : ℕ) : List ℕ :=
  (List.range (2 * half + 1)).filterMap (fun (d : ℕ) =>
    let j : ℤ := (i : ℤ) - (half : ℤ) + (d : ℤ)
    if 0 ≤ j ∧ j < (height : ℤ) then some j.toNat else none)

/-- `LineSegmenter::smooth_histogram` (segmenter.rs lines 209–229): for each row
the mean of the histogram over the in-bounds part of the centered window of
radius `half = smooth_window / 2`; `0.0` if the window is empty. -/
def smooth_histogram (smooth_window : ℕ) (hist : List ℚ) : List ℚ :=
  let height := hist.length
  let half := smooth_window / 2
  (List.range height).map (fun i =>
    let js := smoothWindowIdx height half i
    let sum : ℚ := (js.map (fun j => hist.getD j 0)).sum
    let count := js.length
    if 0 < count then sum / (count : ℚ) else 0)

/-- Step 2 of `LineSegmenter::segment` (segmenter.rs lines 132–137): smooth the
histogram only when `smooth_window > 1`. -/
def segmentSmoothed (p : LineSegmenter) (hist : List ℚ) : List ℚ :=
  if 1 < p.smooth_window then smooth_histogram p.smooth_window hist else hist

/-- One iteration of the region-scan loop of `LineSegmenter::segment`
(segmenter.rs lines 157–179).  State: the currently open region start and the
regions closed so far.  A region is kept only if its height reaches
`min_line_height`. -/
def regionStep (isText : ℕ → Bool) (min_line_height : ℕ)
    (st : Option ℕ × List (ℕ × ℕ)) (y : ℕ) : Option ℕ × List (ℕ × ℕ) :=
  match st.1, isText y with
  | none, true => (some y, st.2)
  | some s, false =>
      (none, if min_line_height ≤ y - s then st.2 ++ [(s, y)] else st.2)
  | _, _ => st

/-- The region-scan of `LineSegmenter::segment` (segmenter.rs lines 153–187),
including the final flush of a region still open at the bottom edge. -/
def findRegions (isText : ℕ → Bool) (min_line_height height : ℕ) : List (ℕ × ℕ) :=
  let st := (List.range height).foldl (regionStep isText min_line_height) (none, [])
  match st.1 with
  | some s => if min_line_height ≤ height - s then st.2 ++ [(s, height)] else st.2
  | none => st.2

/-- The `x_min`/`x_max`/`has_pixels` scan of `LineSegmenter::extract_line`
(segmenter.rs lines 262–280): fold over rows `r_start..r_end` and columns
`0..width`, updating the bounds at every ink pixel. -/
def lineBounds (img : GrayImage) (r_start r_end : ℕ) : ℕ × ℕ × Bool :=
  (List.range (r_end - r_start)).foldl (fun acc dy =>
    (List.range img.width).foldl (fun acc x =>
      if inkAt img x (r_start + dy) then
        (min acc.1 x, max acc.2.1 x, true)
      else acc) acc) (img.width, 0, false)

/-- `LineSegmenter::extract_line` (segmenter.rs lines 252–314): find the ink
bounds of the row range, return `none` when the range has no ink pixel,
otherwise pad by 4 pixels clamped to the image (`-` on `ℕ` is
`saturating_sub`), and crop. -/
def extract_line (img : GrayImage) (r_start r_end : ℕ) : Option LineSegment :=
  let b := lineBounds img r_start r_end
  if b.2.2 = false then none
  else
    let pad := 4
    let y1 := r_start - pad
    let y2 := min (r_end + pad) img.height
    let x1 := b.1 - pad
    let x2 := min (b.2.1 + pad) img.width
    let w := x2 - x1
    let h := y2 - y1
    some { img := { width := w, height := h,
                    pixel := fun x y => img.pixel (x1 + x) (y1 + y) }
           bbox := { x := x1, y := y1, w := w, h := h } }

/-- Steps 1–4 of `LineSegmenter::segment` (segmenter.rs lines 110–158):
histogram, optional smoothing, the empty-page early return, the gap threshold
(5 % of the mean positive density) and the region scan. -/
def segmentRegions (p : LineSegmenter) (img : GrayImage) : List (ℕ × ℕ) :=
  let smoothed := segmentSmoothed p (pageHist img)
  let nonZero := smoothed.filter (fun v => 0 < v)
  if nonZero = [] then []
  else
    let mean : ℚ := nonZero.sum / (nonZero.length : ℚ)
    let gap : ℚ := mean * (5 / 100)
    findRegions (fun y => gap < smoothed.getD y 0) p.min_line_height img.height

/-- `LineSegmenter::segment` (segmenter.rs lines 110–190): extract each
surviving region in scan order; regions without ink pixels are dropped. -/
def segment (p : LineSegmenter) (img : GrayImage) : List LineSegment :=
  (segmentRegions p img).filterMap (fun r => extract_line img r.1 r.2)

/-! ### monocr.rs — CTC greedy decoding -/

/-- The argmax loop of `MonOcr::decode_owned` (monocr.rs lines 756–766) over the
first `n` classes of a row of values.  The source starts from
`max_val = f32::NEG_INFINITY, max_idx = 0` and updates on a strict `>`; in `ℚ`
the first comparison always succeeds, so the loop is the recursion below
(ties keep the earlier index; `n = 0` leaves `max_idx = 0`). -/
def argmaxUpTo (vals : ℕ → ℚ) : ℕ → ℕ
  | 0 => 0
  | n + 1 =>
      let i := argmaxUpTo vals n
      if vals i < vals n then n else i

/-- One timestep of `MonOcr::decode_owned` (monocr.rs lines 755–774).
`acc = (decoded, prev_idx)`; the row of timestep `t` is
`data[t * num_classes + c]` for `c < num_classes`.  A character is pushed iff
the argmax is non-blank, differs from `prev_idx` and indexes into the charset;
`prev_idx` is always updated. -/
def decodeStep (charset : List Char) (num_classes : ℕ) (data : ℕ → ℚ)
    (acc : List Char × ℤ) (t : ℕ) : List Char × ℤ :=
  let max_idx := argmaxUpTo (fun c => data (t * num_classes + c)) num_classes
  let decoded :=
    if max_idx ≠ 0 ∧ (max_idx : ℤ) ≠ acc.2 then
      if 0 < max_idx ∧ max_idx ≤ charset.length then
        acc.1 ++ [charset.getD (max_idx - 1) 'A']
      else acc.1
    else acc.1
  (decoded, (max_idx : ℤ))

/-- `MonOcr::decode_owned` (monocr.rs lines 747–777): CTC greedy decoding of a
flattened `(sequence_length, num_classes)` logits buffer, starting from
`prev_idx = -1`. -/
def decode_owned (charset : List Char) (data : ℕ → ℚ)
    (sequence_length num_classes : ℕ) : String :=
  ⟨((List.range sequence_length).foldl
      (decodeStep charset num_classes data) ([], -1)).1⟩

/-- The argmax of timestep `t` of a flattened logits buffer, as computed by
`decode_owned`. -/
def rowArgmax (data : ℕ → ℚ) (num_classes t : ℕ) : ℕ :=
  argmaxUpTo (fun c => data (t * num_classes + c)) num_classes

/-! ### monocr.rs — preprocessing -/

/-- `f32::round` / `f64::round`: round half away from zero (equal to round half
up on non-negative arguments). -/
def f64Round (q : ℚ) : ℤ :=
  if 0 ≤ q then ⌊q + 1 / 2⌋ else -⌊-q + 1 / 2⌋

/-- The scaled width of `MonOcr::preprocess` (monocr.rs lines 647–650):
`scale = 64 / height`, `new_width = round(width * scale)` clamped to the target
width 1024.  (`height = 0` never occurs for a cropped line; the claim assumes
`height > 0`.) -/
def preprocessNewWidth (width height : ℕ) : ℕ :=
  min (f64Round ((width : ℚ) * ((64 : ℚ) / (height : ℚ)))).toNat 1024

/-- The tensor fill of `MonOcr::preprocess` (monocr.rs lines 657–675), as the
map `(y, x) ↦ tensor[0, 0, y, x]` for `y < 64`, `x < 1024`: normalized resized
pixels left of `new_width`, white padding `1.0` elsewhere. -/
def preprocessTensor (resized : GrayImage) (new_width : ℕ) (y x : ℕ) : ℚ :=
  if x < new_width then ((resized.pixel x y : ℕ) : ℚ) / (1275 / 10) - 1 else 1

/-- `MonOcr::preprocess` (monocr.rs lines 644–677).  The external
`image::imageops::resize` (Triangle filter) is a collaborator passed in as a
function producing the resized image requested at `(new_width, 64)`. -/
def preprocess (resize : GrayImage → ℕ → ℕ → GrayImage) (img : GrayImage) :
    ℕ → ℕ → ℚ :=
  let new_width := preprocessNewWidth img.width img.height
  preprocessTensor (resize img new_width 64) new_width

/-! ### monocr.rs — construction -/

/-- Configuration state assembled by `MonOcr::new` (monocr.rs lines 342–348),
without the opaque ONNX session. -/
structure MonOcrCfg where
  charset : List Char
  segmenter : LineSegmenter
  target_height : ℕ
  target_width : ℕ
deriving Repr, DecidableEq

/-- Rust's `str::trim`: drop leading and trailing whitespace, on code points. -/
def rustTrim (s : List Char) : List Char :=
  ((s.dropWhile Char.isWhitespace).reverse.dropWhile Char.isWhitespace).reverse

/-- The charset and configuration handling of `MonOcr::new` (monocr.rs lines
316–349).  The source fallibly resolves the model path and builds the ONNX
session — steps independent of the charset, modelled as succeeding — and
derives the charset as `charset_str.trim().chars().collect()` with **no**
emptiness check before returning `Ok`. -/
def monOcrNew (defaultCharset : String) (charset : Option String)
    (min_line_height smooth_window : ℕ) : Except String MonOcrCfg :=
  let charset_str := charset.getD defaultCharset
  Except.ok
    { charset := rustTrim charset_str.data
      segmenter := { min_line_height := min_line_height, smooth_window := smooth_window }
      target_height := 64
      target_width := 1024 }

/-! ### utils.rs — Levenshtein distance and accuracy -/

/-- The dynamic-programming table of `levenshtein` (utils.rs lines 91–130):
`levMatrix s1 s2 j i` is `matrix[j][i]`, the edit distance between the first
`i` characters of `s1` and the first `j` characters of `s2`.  The `getD`
defaults are unreachable for the in-bounds indices the source fills. -/
def levMatrix (s1 s2 : List Char) : ℕ → ℕ → ℕ
  | 0, i => i
  | j + 1, 0 => j + 1
  | j + 1, i + 1 =>
      let substitution_cost := if s1.getD i 'A' = s2.getD j 'A' then 0 else 1
      min (levMatrix s1 s2 (j + 1) i + 1)
        (min (levMatrix s1 s2 j (i + 1) + 1)
          (levMatrix s1 s2 j i + substitution_cost))

/-- `levenshtein` (utils.rs lines 91–130): the bottom-right cell
`matrix[len2][len1]` of the filled table, on Unicode code points
(`str::chars`). -/
def levenshtein (s1 s2 : String) : ℕ :=
  levMatrix s1.data s2.data s2.data.length s1.data.length

/-- `calculate_accuracy` (utils.rs lines 43–59): empty ground truth, then empty
prediction, both yield `0.0`; otherwise `(1 - d/max_len) * 100` rounded to two
decimals (`(v * 100).round() / 100` with `f64::round`). -/
def calculate_accuracy (predicted ground_truth : String) : ℚ :=
  if ground_truth = "" then 0
  else if predicted = "" then 0
  else
    let distance := levenshtein predicted ground_truth
    let max_len := max predicted.data.length ground_truth.data.length
    if max_len = 0 then 100
    else ((f64Round ((1 - (distance : ℚ) / (max_len : ℚ)) * 100 * 100) : ℚ)) / 100

/-- Modelled from the spec (§4.5, glossary): `EditDistSpec a b n` holds iff `a`
can be transformed into `b` by `n` single-character edits (insertions,
deletions, substitutions at the end of the already-consumed prefix); the
unit-cost Levenshtein distance of `a` and `b` is the least such `n`.  Used only
to compare the source's DP table against the spec's notion of edit distance. -/
inductive EditDistSpec : List Char → List Char → ℕ → Prop
  | nil : EditDistSpec [] [] 0
  | delete {xs ys : List Char} {n : ℕ} (x : Char) :
      EditDistSpec xs ys n → EditDistSpec (xs ++ [x]) ys (n + 1)
  | insert {xs ys : List Char} {n : ℕ} (y : Char) :
      EditDistSpec xs ys n → EditDistSpec xs (ys ++ [y]) (n + 1)
  | substitute {xs ys : List Char} {n : ℕ} (x y : Char) :
      EditDistSpec xs ys n →
      EditDistSpec (xs ++ [x]) (ys ++ [y]) (n + if x = y then 0 else 1)

/-! ### Concrete inputs used by witnesses and counterexamples -/

/-- A 1×3 page: ink at rows 0 and 2, background at row 1. -/
def imgCex : GrayImage :=
  { width := 1, height := 3, pixel := fun _ y => if y = 1 then 255 else 0 }

/-- A 2×2 all-background (no ink) page. -/
def whiteImg : GrayImage :=
  { width := 2, height := 2, pixel := fun _ _ => 255 }

/-- A 1×1 all-ink line image. -/
def imgOne : GrayImage :=
  { width := 1, height := 1, pixel := fun _ _ => 0 }

/-- A trivial stand-in for the external `image::imageops::resize` collaborator:
returns an all-black image of the requested dimensions. -/
def resizeBlack : GrayImage → ℕ → ℕ → GrayImage :=
  fun _ w h => { width := w, height := h, pixel := fun _ _ => 0 }

/-- The first line extracted from `imgCex` (the region of its top ink row),
used as a concrete member of a `segment` result. -/
def lineSegCex : LineSegment :=
  (extract_line imgCex 0 1).getD
    { img := imgOne, bbox := { x := 0, y := 0, w := 0, h := 0 } }

/-! ### Properties of the argmax loop -/

theorem argmaxUpTo_le (vals : ℕ → ℚ) (n : ℕ) : argmaxUpTo vals n ≤ n := by
  induction n with
  | zero => simp [argmaxUpTo]
  | succ n ih =>
      simp only [argmaxUpTo]
      split
      · exact Nat.le_succ n
      · exact Nat.le_succ_of_le ih

theorem argmaxUpTo_lt (vals : ℕ → ℚ) (n : ℕ) (h : 0 < n) : argmaxUpTo vals n < n := by
  induction n with
  | zero => exact absurd h (lt_irrefl 0)
  | succ n ih =>
      simp only [argmaxUpTo]
      split
      · exact Nat.lt_succ_self n
      · rcases Nat.eq_zero_or_pos n with h0 | h0
        · subst h0; simp [argmaxUpTo]
        · exact Nat.lt_succ_of_lt (ih h0)

theorem argmaxUpTo_is_max (vals : ℕ → ℚ) (n : ℕ) :
    ∀ c < n, vals c ≤ vals (argmaxUpTo vals n) := by
  induction n with
  | zero => intro c hc; exact absurd hc (Nat.not_lt_zero c)
  | succ n ih =>
      intro c hc
      simp only [argmaxUpTo]
      by_cases h : vals (argmaxUpTo vals n) < vals n
      · rw [if_pos h]
        rcases Nat.lt_succ_iff_lt_or_eq.mp hc with hc | hc
        · exact le_trans (ih c hc) (le_of_lt h)
        · subst hc; exact le_refl _
      · rw [if_neg h]
        rcases Nat.lt_succ_iff_lt_or_eq.mp hc with hc | hc
        · exact ih c hc
        · subst hc; exact le_of_not_lt h

theorem argmaxUpTo_lowest (vals : ℕ → ℚ) (n : ℕ) :
    ∀ c < n, vals c = vals (argmaxUpTo vals n) → argmaxUpTo vals n ≤ c := by
  induction n with
  | zero => intro c hc; exact absurd hc (Nat.not_lt_zero c)
  | succ n ih =>
      intro c hc hv
      simp only [argmaxUpTo] at hv ⊢
      by_cases h : vals (argmaxUpTo vals n) < vals n
      · rw [if_pos h] at hv ⊢
        rcases Nat.lt_succ_iff_lt_or_eq.mp hc with hc' | hc'
        · exact absurd hv (ne_of_lt (lt_of_le_of_lt (argmaxUpTo_is_max vals n c hc') h))
        · exact le_of_eq hc'.symm
      · rw [if_neg h] at hv ⊢
        rcases Nat.lt_succ_iff_lt_or_eq.mp hc with hc' | hc'
        · exact ih c hc' hv
        · subst hc'; exact argmaxUpTo_le vals _

/-! ### Behaviour of a decode step -/

theorem decodeStep_blank (charset : List Char) (num_classes : ℕ) (data : ℕ → ℚ)
    (acc : List Char × ℤ) (t : ℕ) (h : rowArgmax data num_classes t = 0) :
    decodeStep charset num_classes data acc t = (acc.1, 0) := by
  unfold decodeStep
  simp only [rowArgmax] at h
  simp [h]

theorem decodeStep_emit (charset : List Char) (num_classes : ℕ) (data : ℕ → ℚ)
    (acc : List Char × ℤ) (t k : ℕ) (h : rowArgmax data num_classes t = k)
    (hk0 : k ≠ 0) (hprev : (k : ℤ) ≠ acc.2) (hlen : k ≤ charset.length) :
    decodeStep charset num_classes data acc t
      = (acc.1 ++ [charset.getD (k - 1) 'A'], (k : ℤ)) := by
  unfold decodeStep
  simp only [rowArgmax] at h
  rw [h]
  dsimp only
  rw [if_pos ⟨hk0, hprev⟩, if_pos ⟨Nat.pos_of_ne_zero hk0, hlen⟩]

theorem decodeStep_repeat (charset : List Char) (num_classes : ℕ) (data : ℕ → ℚ)
    (acc : List Char × ℤ) (t k : ℕ) (h : rowArgmax data num_classes t = k)
    (hprev : (k : ℤ) = acc.2) :
    decodeStep charset num_classes data acc t = (acc.1, (k : ℤ)) := by
  unfold decodeStep
  simp only [rowArgmax] at h
  rw [h]
  have : ¬ (k ≠ 0 ∧ (k : ℤ) ≠ acc.2) := by
    rintro ⟨-, hne⟩; exact hne hprev
  dsimp only
  rw [if_neg this]

theorem decodeStep_fst_empty_charset (num_classes : ℕ) (data : ℕ → ℚ)
    (acc : List Char × ℤ) (t : ℕ) :
    (decodeStep [] num_classes data acc t).1 = acc.1 := by
  unfold decodeStep
  dsimp only
  split
  · rw [if_neg (by rintro ⟨h1, h2⟩; simp at h2; omega)]
  · rfl

theorem decode_fold_all_blank (charset : List Char) (num_classes : ℕ)
    (data : ℕ → ℚ) (T : ℕ)
    (h : ∀ t < T, rowArgmax data num_classes t = 0) :
    ((List.range T).foldl (decodeStep charset num_classes data) ([], -1)).1 = [] := by
  induction T with
  | zero => rfl
  | succ T ih =>
      rw [List.range_succ, List.foldl_append, List.foldl_cons, List.foldl_nil]
      rw [decodeStep_blank charset num_classes data _ T
        (h T (Nat.lt_succ_self T))]
      exact ih (fun t ht => h t (Nat.lt_succ_of_lt ht))

end Monocr

/-- C1: `decode` follows the CTC label-collapse rule.  For logits of shape
`(T, num_classes)` with `num_classes = |charset| + 1` and a non-empty charset:
an all-blank argmax sequence decodes to the empty string; two consecutive
timesteps whose argmax is the same non-blank class emit exactly one symbol;
with one blank-argmax timestep between two timesteps of the same non-blank
argmax class, two symbols are emitted (`prev_idx` is updated at every timestep,
so the blank resets repetition). -/
theorem claim_C1 (charset : List Char) (num_classes : ℕ)
    (hcs : charset ≠ []) (hC : num_classes = charset.length + 1) :
    (∀ (data : ℕ → ℚ) (T : ℕ),
       (∀ t < T, Monocr.rowArgmax data num_classes t = 0) →
       Monocr.decode_owned charset data T num_classes = "") ∧
    (∀ (data : ℕ → ℚ) (k : ℕ), k ≠ 0 → k < num_classes →
       Monocr.rowArgmax data num_classes 0 = k →
       Monocr.rowArgmax data num_classes 1 = k →
       (Monocr.decode_owned charset data 2 num_classes).data
         = [charset.getD (k - 1) 'A']) ∧
    (∀ (data : ℕ → ℚ) (k : ℕ), k ≠ 0 → k < num_classes →
       Monocr.rowArgmax data num_classes 0 = k →
       Monocr.rowArgmax data num_classes 1 = 0 →
       Monocr.rowArgmax data num_classes 2 = k →
       (Monocr.decode_owned charset data 3 num_classes).data
         = [charset.getD (k - 1) 'A', charset.getD (k - 1) 'A']) := by
  have hne1 : ∀ k : ℕ, ((k : ℤ) : ℤ) ≠ -1 := by intro k; omega
  refine ⟨fun data T h => ?_, fun data k hk0 hkC h0 h1 => ?_,
    fun data k hk0 hkC h0 h1 h2 => ?_⟩
  · show (⟨_⟩ : String) = ""
    rw [Monocr.decode_fold_all_blank charset num_classes data T h]
  · have hlen : k ≤ charset.length := by omega
    unfold Monocr.decode_owned
    have hr : List.range 2 = [0, 1] := rfl
    rw [hr, List.foldl_cons, List.foldl_cons, List.foldl_nil]
    rw [Monocr.decodeStep_emit charset num_classes data _ 0 k h0 hk0 (hne1 k) hlen]
    rw [Monocr.decodeStep_repeat charset num_classes data _ 1 k h1 rfl]
    rfl
  · have hlen : k ≤ charset.length := by omega
    unfold Monocr.decode_owned
    have hr : List.range 3 = [0, 1, 2] := rfl
    rw [hr, List.foldl_cons, List.foldl_cons, List.foldl_cons, List.foldl_nil]
    rw [Monocr.decodeStep_emit charset num_classes data _ 0 k h0 hk0 (hne1 k) hlen]
    rw [Monocr.decodeStep_blank charset num_classes data _ 1 h1]
    rw [Monocr.decodeStep_emit charset num_classes data _ 2 k h2 hk0 (by omega) hlen]
    rfl

/-- C1 witness: with charset `['a', 'b']` (3 classes) — two all-blank
timesteps decode to `""`; two consecutive timesteps of class 1 decode to
`"a"`; class 1, blank, class 1 decodes to `"aa"`. -/
theorem claim_C1_witness :
    (['a', 'b'] ≠ ([] : List Char) ∧ 3 = ['a', 'b'].length + 1) ∧
    Monocr.decode_owned ['a', 'b'] (fun i => [(9 : ℚ), 0, 0, 9, 0, 0].getD i 0) 2 3
      = "" ∧
    (Monocr.decode_owned ['a', 'b'] (fun i => [(0 : ℚ), 9, 0, 0, 9, 0].getD i 0) 2 3).data
      = [['a', 'b'].getD 0 'A'] ∧
    (Monocr.decode_owned ['a', 'b']
        (fun i => [(0 : ℚ), 9, 0, 9, 0, 0, 0, 9, 0].getD i 0) 3 3).data
      = [['a', 'b'].getD 0 'A', ['a', 'b'].getD 0 'A'] := by
  refine ⟨⟨by decide, by decide⟩, ?_, ?_, ?_⟩
  · exact (claim_C1 ['a', 'b'] 3 (by decide) rfl).1
      (fun i => [(9 : ℚ), 0, 0, 9, 0, 0].getD i 0) 2 (by decide)
  · exact (claim_C1 ['a', 'b'] 3 (by decide) rfl).2.1
      (fun i => [(0 : ℚ), 9, 0, 0, 9, 0].getD i 0) 1 (by decide) (by decide)
      (by decide) (by decide)
  · exact (claim_C1 ['a', 'b'] 3 (by decide) rfl).2.2
      (fun i => [(0 : ℚ), 9, 0, 9, 0, 0, 0, 9, 0].getD i 0) 1 (by decide) (by decide)
      (by decide) (by decide) (by decide)

/-- C7: at every timestep, `decode` selects the class with the maximum logit
value over all the classes of that timestep; when several classes tie for the
maximum the lowest class index is chosen; the chosen class is recorded in
`prev_idx`, so the decoded string is a deterministic function of the logits
(the embedding of `decode_owned` is a Lean function of the logits alone). -/
theorem claim_C7 (charset : List Char) (data : ℕ → ℚ) (num_classes : ℕ)
    (acc : List Char × ℤ) (t : ℕ) (h : 0 < num_classes) :
    (Monocr.decodeStep charset num_classes data acc t).2
        = ((Monocr.rowArgmax data num_classes t : ℕ) : ℤ) ∧
    Monocr.rowArgmax data num_classes t < num_classes ∧
    (∀ c < num_classes,
      data (t * num_classes + c)
        ≤ data (t * num_classes + Monocr.rowArgmax data num_classes t)) ∧
    (∀ c < num_classes,
      data (t * num_classes + c)
          = data (t * num_classes + Monocr.rowArgmax data num_classes t) →
        Monocr.rowArgmax data num_classes t ≤ c) := by
  refine ⟨rfl, Monocr.argmaxUpTo_lt _ num_classes h, fun c hc => ?_, fun c hc hv => ?_⟩
  · exact Monocr.argmaxUpTo_is_max (fun c => data (t * num_classes + c)) num_classes c hc
  · exact Monocr.argmaxUpTo_lowest (fun c => data (t * num_classes + c)) num_classes c hc hv

/-- C7 witness: on the row `[5, 7, 7]` (a tie between classes 1 and 2) the
decoder picks class 1, the lowest index attaining the maximum. -/
theorem claim_C7_witness :
    0 < 3 ∧
    Monocr.rowArgmax (fun i => [(5 : ℚ), 7, 7].getD i 0) 3 0 = 1 ∧
    ((Monocr.decodeStep [] 3 (fun i => [(5 : ℚ), 7, 7].getD i 0) ([], -1) 0).2
        = ((Monocr.rowArgmax (fun i => [(5 : ℚ), 7, 7].getD i 0) 3 0 : ℕ) : ℤ) ∧
      Monocr.rowArgmax (fun i => [(5 : ℚ), 7, 7].getD i 0) 3 0 < 3 ∧
      (∀ c < 3,
        (fun i => [(5 : ℚ), 7, 7].getD i 0) (0 * 3 + c)
          ≤ (fun i => [(5 : ℚ), 7, 7].getD i 0)
              (0 * 3 + Monocr.rowArgmax (fun i => [(5 : ℚ), 7, 7].getD i 0) 3 0)) ∧
      (∀ c < 3,
        (fun i => [(5 : ℚ), 7, 7].getD i 0) (0 * 3 + c)
            = (fun i => [(5 : ℚ), 7, 7].getD i 0)
                (0 * 3 + Monocr.rowArgmax (fun i => [(5 : ℚ), 7, 7].getD i 0) 3 0) →
          Monocr.rowArgmax (fun i => [(5 : ℚ), 7, 7].getD i 0) 3 0 ≤ c)) :=
  ⟨by decide, by decide,
    claim_C7 [] (fun i => [(5 : ℚ), 7, 7].getD i 0) 3 ([], -1) 0 (by decide)⟩

/-- C10: decoding never indexes the charset out of bounds: a timestep whose
argmax index `k` exceeds the charset length emits no symbol (the guarded push
is skipped) while `prev_idx` is still updated to `k`; with every access
guarded, the embedding of the decoder is total for every class count. -/
theorem claim_C10 (charset : List Char) (data : ℕ → ℚ) (num_classes : ℕ)
    (acc : List Char × ℤ) (t : ℕ)
    (h : charset.length < Monocr.rowArgmax data num_classes t) :
    Monocr.decodeStep charset num_classes data acc t
      = (acc.1, ((Monocr.rowArgmax data num_classes t : ℕ) : ℤ)) := by
  unfold Monocr.decodeStep
  have hle : ¬ (0 < Monocr.rowArgmax data num_classes t ∧
      Monocr.rowArgmax data num_classes t ≤ charset.length) := by
    rintro ⟨-, hc⟩
    exact absurd h (not_lt_of_le hc)
  simp only [Monocr.rowArgmax] at hle ⊢
  simp [hle]

/-- C10 witness: charset of length 1 and a row whose argmax is class 2: the
step emits nothing and sets `prev_idx := 2`. -/
theorem claim_C10_witness :
    ['a'].length < Monocr.rowArgmax (fun i => [(0 : ℚ), 0, 9].getD i 0) 3 0 ∧
    Monocr.decodeStep ['a'] 3 (fun i => [(0 : ℚ), 0, 9].getD i 0) ([], -1) 0
      = ([], ((Monocr.rowArgmax (fun i => [(0 : ℚ), 0, 9].getD i 0) 3 0 : ℕ) : ℤ)) :=
  ⟨by decide,
    claim_C10 ['a'] (fun i => [(0 : ℚ), 0, 9].getD i 0) 3 ([], -1) 0 (by decide)⟩

/-- C3 counterexample: with the custom charset `"  "` (whitespace only), the
charset obtained after trimming is empty, yet construction succeeds
(`Except.ok`) — `MonOcr::new` performs no emptiness check, so an error
"whenever the trimmed charset is empty" is refuted at this input. -/
theorem claim_C3_cex :
    Monocr.rustTrim ("  " : String).data = [] ∧
    Monocr.monOcrNew "ab" (some "  ") 10 3
      = Except.ok
          { charset := []
            segmenter := { min_line_height := 10, smooth_window := 3 }
            target_height := 64
            target_width := 1024 } := by
  constructor
  · decide
  · rfl

/-- C3 (amended): construction never fails because of the charset — the
charset handling of `MonOcr::new` performs no validation, so a charset that
trims to empty is accepted and construction succeeds with it; an empty charset
is nevertheless harmless mid-pipeline, since the decoder's bounds guard then
never emits a symbol. -/
theorem claim_C3 (defaultCharset : String) (charset : Option String)
    (min_line_height smooth_window : ℕ) :
    (∃ cfg, Monocr.monOcrNew defaultCharset charset min_line_height smooth_window
        = Except.ok cfg ∧
      cfg.charset = Monocr.rustTrim (charset.getD defaultCharset).data) ∧
    (∀ (data : ℕ → ℚ) (T num_classes : ℕ),
      Monocr.decode_owned [] data T num_classes = "") := by
  constructor
  · exact ⟨_, rfl, rfl⟩
  · intro data T num_classes
    show (⟨_⟩ : String) = ""
    have : ∀ (l : List ℕ) (acc : List Char × ℤ),
        (l.foldl (Monocr.decodeStep [] num_classes data) acc).1 = acc.1 := by
      intro l
      induction l with
      | nil => intro acc; rfl
      | cons t l ih =>
          intro acc
          rw [List.foldl_cons, ih]
          exact Monocr.decodeStep_fst_empty_charset num_classes data acc t
    rw [this]

/-- C9: for every line image of positive height, `preprocess` produces the
`(1, 1, 64, 1024)` tensor in which `new_width = min(round(width * 64 / height),
1024)`; cells in columns `< new_width` hold the normalized resized pixel
`p / 127.5 - 1`, cells in columns `≥ new_width` hold the white padding `1.0`,
and every value lies in `[-1, 1]`. -/
theorem claim_C9 (img : Monocr.GrayImage)
    (resize : Monocr.GrayImage → ℕ → ℕ → Monocr.GrayImage)
    (hh : 0 < img.height) :
    Monocr.preprocessNewWidth img.width img.height
      = min (Monocr.f64Round
          (((img.width : ℚ) * 64) / (img.height : ℚ))).toNat 1024 ∧
    (∀ y x, x < Monocr.preprocessNewWidth img.width img.height →
      Monocr.preprocess resize img y x
        = (((resize img (Monocr.preprocessNewWidth img.width img.height) 64).pixel
              x y : ℕ) : ℚ) / (1275 / 10) - 1) ∧
    (∀ y x, Monocr.preprocessNewWidth img.width img.height ≤ x →
      Monocr.preprocess resize img y x = 1) ∧
    (∀ y x, -1 ≤ Monocr.preprocess resize img y x ∧
      Monocr.preprocess resize img y x ≤ 1) := by
  refine ⟨?_, fun y x hx => ?_, fun y x hx => ?_, fun y x => ?_⟩
  · unfold Monocr.preprocessNewWidth
    rw [mul_div_assoc]
  · unfold Monocr.preprocess Monocr.preprocessTensor
    rw [if_pos hx]
  · unfold Monocr.preprocess Monocr.preprocessTensor
    rw [if_neg (not_lt_of_le hx)]
  · unfold Monocr.preprocess Monocr.preprocessTensor
    split
    · set p := ((resize img (Monocr.preprocessNewWidth img.width img.height)
          64).pixel x y : ℕ) with hp
      have h0 : (0 : ℚ) ≤ (p : ℚ) := by positivity
      have h255 : (p : ℚ) ≤ 255 := by
        have := (((resize img (Monocr.preprocessNewWidth img.width img.height)
          64).pixel x y)).isLt
        rw [hp] at *
        exact_mod_cast Nat.lt_succ_iff.mp this
      constructor
      · have : (0 : ℚ) ≤ (p : ℚ) / (1275 / 10) := by positivity
        linarith
      · have : (p : ℚ) / (1275 / 10) ≤ 255 / (1275 / 10) := by
          apply div_le_div_of_nonneg_right h255 <;> norm_num
        have h2 : (255 : ℚ) / (1275 / 10) = 2 := by norm_num
        linarith [this, h2 ▸ this]
    · constructor <;> norm_num

/-- C9 witness: a 1×1 line image with the all-black resize stand-in; the
height hypothesis holds and the conclusion is obtained from the theorem. -/
theorem claim_C9_witness :
    0 < Monocr.imgOne.height ∧
    Monocr.preprocessNewWidth Monocr.imgOne.width Monocr.imgOne.height
      = min (Monocr.f64Round
          (((Monocr.imgOne.width : ℚ) * 64) / (Monocr.imgOne.height : ℚ))).toNat
          1024 ∧
    (∀ y x, x < Monocr.preprocessNewWidth Monocr.imgOne.width Monocr.imgOne.height →
      Monocr.preprocess Monocr.resizeBlack Monocr.imgOne y x
        = (((Monocr.resizeBlack Monocr.imgOne
              (Monocr.preprocessNewWidth Monocr.imgOne.width Monocr.imgOne.height)
              64).pixel x y : ℕ) : ℚ) / (1275 / 10) - 1) ∧
    (∀ y x, Monocr.preprocessNewWidth Monocr.imgOne.width Monocr.imgOne.height ≤ x →
      Monocr.preprocess Monocr.resizeBlack Monocr.imgOne y x = 1) ∧
    (∀ y x, -1 ≤ Monocr.preprocess Monocr.resizeBlack Monocr.imgOne y x ∧
      Monocr.preprocess Monocr.resizeBlack Monocr.imgOne y x ≤ 1) :=
  ⟨Nat.one_pos, claim_C9 Monocr.imgOne Monocr.resizeBlack Nat.one_pos⟩

/-! ### The Levenshtein DP table: bounds, stability, and correctness -/

theorem levMatrix_zero_left (s1 s2 : List Char) (i : ℕ) :
    Monocr.levMatrix s1 s2 0 i = i := by
  rw [Monocr.levMatrix]

theorem levMatrix_zero_right (s1 s2 : List Char) (j : ℕ) :
    Monocr.levMatrix s1 s2 j 0 = j := by
  cases j with
  | zero => exact levMatrix_zero_left s1 s2 0
  | succ j => rw [Monocr.levMatrix]

theorem levMatrix_succ_succ (s1 s2 : List Char) (j i : ℕ) :
    Monocr.levMatrix s1 s2 (j + 1) (i + 1)
      = min (Monocr.levMatrix s1 s2 (j + 1) i + 1)
          (min (Monocr.levMatrix s1 s2 j (i + 1) + 1)
            (Monocr.levMatrix s1 s2 j i
              + if s1.getD i 'A' = s2.getD j 'A' then 0 else 1)) := by
  rw [Monocr.levMatrix]

theorem levMatrix_le_max (s1 s2 : List Char) :
    ∀ j i, Monocr.levMatrix s1 s2 j i ≤ max i j := by
  intro j
  induction j with
  | zero => intro i; rw [levMatrix_zero_left]; omega
  | succ j ihj =>
      intro i
      induction i with
      | zero => rw [levMatrix_zero_right]; omega
      | succ i ihi =>
          rw [levMatrix_succ_succ]
          have h3 := ihj i
          have hcost : (if s1.getD i 'A' = s2.getD j 'A' then 0 else 1) ≤ 1 := by
            split <;> omega
          omega

theorem levMatrix_append_fst (s1 s2 : List Char) (x : Char) :
    ∀ j i, i ≤ s1.length →
      Monocr.levMatrix (s1 ++ [x]) s2 j i = Monocr.levMatrix s1 s2 j i := by
  intro j
  induction j with
  | zero => intro i _; rw [levMatrix_zero_left, levMatrix_zero_left]
  | succ j ihj =>
      intro i hi
      induction i with
      | zero => rw [levMatrix_zero_right, levMatrix_zero_right]
      | succ i ihi =>
          rw [levMatrix_succ_succ, levMatrix_succ_succ]
          have hilt : i < s1.length := hi
          rw [List.getD_append s1 [x] 'A' i hilt]
          rw [ihi (le_of_lt hilt), ihj (i + 1) hi, ihj i (le_of_lt hilt)]

theorem levMatrix_append_snd (s1 s2 : List Char) (y : Char) :
    ∀ j i, j ≤ s2.length →
      Monocr.levMatrix s1 (s2 ++ [y]) j i = Monocr.levMatrix s1 s2 j i := by
  intro j
  induction j with
  | zero => intro i _; rw [levMatrix_zero_left, levMatrix_zero_left]
  | succ j ihj =>
      intro i hj
      induction i with
      | zero => rw [levMatrix_zero_right, levMatrix_zero_right]
      | succ i ihi =>
          rw [levMatrix_succ_succ, levMatrix_succ_succ]
          have hjlt : j < s2.length := hj
          rw [List.getD_append s2 [y] 'A' j hjlt]
          rw [ihi, ihj (i + 1) (le_of_lt hjlt), ihj i (le_of_lt hjlt)]

theorem take_succ_getD (d : Char) :
    ∀ (l : List Char) (i : ℕ), i < l.length →
      l.take (i + 1) = l.take i ++ [l.getD i d] := by
  intro l
  induction l with
  | nil => intro i hi; exact absurd hi (by simp)
  | cons a l ih =>
      intro i hi
      cases i with
      | zero => rfl
      | succ i =>
          have hi' : i < l.length := by simpa using hi
          show (a :: l).take (i + 2) = (a :: l).take (i + 1) ++ [(a :: l).getD (i + 1) d]
          rw [List.take_succ_cons, List.take_succ_cons, List.getD_cons_succ,
            ih i hi', List.cons_append]

theorem editDistSpec_levMatrix (s1 s2 : List Char) :
    ∀ j i, i ≤ s1.length → j ≤ s2.length →
      Monocr.EditDistSpec (s1.take i) (s2.take j) (Monocr.levMatrix s1 s2 j i) := by
  intro j
  induction j with
  | zero =>
      intro i hi _
      rw [levMatrix_zero_left]
      induction i with
      | zero => exact Monocr.EditDistSpec.nil
      | succ i ihi =>
          have hilt : i < s1.length := hi
          rw [take_succ_getD 'A' s1 i hilt]
          exact Monocr.EditDistSpec.delete _ (ihi (le_of_lt hilt))
  | succ j ihj =>
      intro i hi hj
      have hjlt : j < s2.length := hj
      induction i with
      | zero =>
          rw [levMatrix_zero_right, take_succ_getD 'A' s2 j hjlt]
          have h := ihj 0 (Nat.zero_le _) (le_of_lt hjlt)
          rw [levMatrix_zero_right] at h
          exact Monocr.EditDistSpec.insert _ h
      | succ i ihi =>
          have hilt : i < s1.length := hi
          rw [levMatrix_succ_succ]
          rcases min_cases (Monocr.levMatrix s1 s2 (j + 1) i + 1)
              (min (Monocr.levMatrix s1 s2 j (i + 1) + 1)
                (Monocr.levMatrix s1 s2 j i
                  + if s1.getD i 'A' = s2.getD j 'A' then 0 else 1)) with
            ⟨h, -⟩ | ⟨h, -⟩
          · rw [h, take_succ_getD 'A' s1 i hilt]
            exact Monocr.EditDistSpec.delete _ (ihi (le_of_lt hilt))
          · rw [h]
            rcases min_cases (Monocr.levMatrix s1 s2 j (i + 1) + 1)
                (Monocr.levMatrix s1 s2 j i
                  + if s1.getD i 'A' = s2.getD j 'A' then 0 else 1) with
              ⟨h2, -⟩ | ⟨h2, -⟩
            · rw [h2, take_succ_getD 'A' s2 j hjlt]
              have hrec := ihj (i + 1) hi (le_of_lt hjlt)
              exact Monocr.EditDistSpec.insert _ hrec
            · rw [h2, take_succ_getD 'A' s1 i hilt, take_succ_getD 'A' s2 j hjlt]
              exact Monocr.EditDistSpec.substitute _ _
                (ihj i (le_of_lt hilt) (le_of_lt hjlt))

theorem levMatrix_le_editDistSpec {a b : List Char} {n : ℕ}
    (h : Monocr.EditDistSpec a b n) :
    Monocr.levMatrix a b b.length a.length ≤ n := by
  induction h with
  | nil =>
      simp only [List.length_nil]
      rw [levMatrix_zero_left]
  | @delete xs ys n x hd ih =>
      cases ys with
      | nil =>
          simp only [List.length_nil, List.length_append, List.length_cons] at *
          rw [levMatrix_zero_left]
          rw [levMatrix_zero_left] at ih
          omega
      | cons y ys =>
          simp only [List.length_append, List.length_cons, List.length_nil] at *
          rw [levMatrix_succ_succ]
          have hstab : Monocr.levMatrix (xs ++ [x]) (y :: ys) (ys.length + 1) xs.length
              = Monocr.levMatrix xs (y :: ys) (ys.length + 1) xs.length :=
            levMatrix_append_fst xs (y :: ys) x (ys.length + 1) xs.length (le_refl _)
          simp only [List.length_cons] at hstab
          omega
  | @insert xs ys n y hd ih =>
      cases xs with
      | nil =>
          simp only [List.length_nil, List.length_append, List.length_cons] at *
          rw [levMatrix_zero_right]
          rw [levMatrix_zero_right] at ih
          omega
      | cons x xs =>
          simp only [List.length_append, List.length_cons, List.length_nil] at *
          rw [levMatrix_succ_succ]
          have hstab : Monocr.levMatrix (x :: xs) (ys ++ [y]) ys.length (xs.length + 1)
              = Monocr.levMatrix (x :: xs) ys ys.length (xs.length + 1) :=
            levMatrix_append_snd (x :: xs) ys y ys.length (xs.length + 1) (le_refl _)
          simp only [List.length_cons] at hstab
          omega
  | @substitute xs ys n x y hd ih =>
      simp only [List.length_append, List.length_cons, List.length_nil] at *
      rw [levMatrix_succ_succ]
      have hx : (xs ++ [x]).getD xs.length 'A' = x := by
        rw [List.getD_append_right xs [x] 'A' xs.length (le_refl _)]
        simp
      have hy : (ys ++ [y]).getD ys.length 'A' = y := by
        rw [List.getD_append_right ys [y] 'A' ys.length (le_refl _)]
        simp
      have hstab : Monocr.levMatrix (xs ++ [x]) (ys ++ [y]) ys.length xs.length
          = Monocr.levMatrix xs ys ys.length xs.length := by
        rw [levMatrix_append_fst xs (ys ++ [y]) x ys.length xs.length (le_refl _)]
        exact levMatrix_append_snd xs ys y ys.length xs.length (le_refl _)
      rw [hx, hy]
      have hcost : (if x = y then 0 else 1) ≤ 1 := by split <;> omega
      omega

/-- C2: `calculate_accuracy` returns 0 whenever `ground_truth` is empty (the
first check, regardless of `predicted`), returns 0 when `ground_truth` is
non-empty and `predicted` is empty, and otherwise returns
`(1 - d / max(len(predicted), len(ground_truth))) * 100` rounded to two
decimals half-up, where `d` is the unit-cost Levenshtein distance (the least
edit-sequence cost) and lengths count Unicode code points; the non-empty
result lies in `[0, 100]`. -/
theorem claim_C2 (predicted ground_truth : String) :
    (ground_truth = "" → Monocr.calculate_accuracy predicted ground_truth = 0) ∧
    (ground_truth ≠ "" → predicted = "" →
      Monocr.calculate_accuracy predicted ground_truth = 0) ∧
    (predicted ≠ "" → ground_truth ≠ "" →
      IsLeast {n | Monocr.EditDistSpec predicted.data ground_truth.data n}
        (Monocr.levenshtein predicted ground_truth) ∧
      Monocr.calculate_accuracy predicted ground_truth
        = ((⌊(1 - (Monocr.levenshtein predicted ground_truth : ℚ)
              / ((max predicted.data.length ground_truth.data.length : ℕ) : ℚ))
            * 100 * 100 + 1 / 2⌋ : ℤ) : ℚ) / 100 ∧
      0 ≤ Monocr.calculate_accuracy predicted ground_truth ∧
      Monocr.calculate_accuracy predicted ground_truth ≤ 100) := by
  refine ⟨fun hg => ?_, fun hg hp => ?_, fun hp hg => ?_⟩
  · simp only [Monocr.calculate_accuracy]
    rw [if_pos hg]
  · simp only [Monocr.calculate_accuracy]
    rw [if_neg hg, if_pos hp]
  · have hpd : predicted.data ≠ [] := by
      intro h
      exact hp (String.ext (h.trans rfl))
    have hgd : ground_truth.data ≠ [] := by
      intro h
      exact hg (String.ext (h.trans rfl))
    have hl1 : 0 < predicted.data.length := List.length_pos.mpr hpd
    have hl2 : 0 < ground_truth.data.length := List.length_pos.mpr hgd
    have hm : 0 < max predicted.data.length ground_truth.data.length :=
      lt_of_lt_of_le hl1 (le_max_left _ _)
    have hdm : Monocr.levenshtein predicted ground_truth
        ≤ max predicted.data.length ground_truth.data.length := by
      unfold Monocr.levenshtein
      have := levMatrix_le_max predicted.data ground_truth.data
        ground_truth.data.length predicted.data.length
      exact this
    have hleast : IsLeast {n | Monocr.EditDistSpec predicted.data ground_truth.data n}
        (Monocr.levenshtein predicted ground_truth) := by
      constructor
      · have h := editDistSpec_levMatrix predicted.data ground_truth.data
          ground_truth.data.length predicted.data.length (le_refl _) (le_refl _)
        rw [List.take_length, List.take_length] at h
        exact h
      · intro n hn
        exact levMatrix_le_editDistSpec hn
    have hdiv1 : (Monocr.levenshtein predicted ground_truth : ℚ)
        / ((max predicted.data.length ground_truth.data.length : ℕ) : ℚ) ≤ 1 := by
      rw [div_le_one (by exact_mod_cast hm)]
      exact_mod_cast hdm
    have hdiv0 : 0 ≤ (Monocr.levenshtein predicted ground_truth : ℚ)
        / ((max predicted.data.length ground_truth.data.length : ℕ) : ℚ) := by
      positivity
    have hv0 : 0 ≤ (1 - (Monocr.levenshtein predicted ground_truth : ℚ)
        / ((max predicted.data.length ground_truth.data.length : ℕ) : ℚ))
          * 100 * 100 := by
      have h1 : (0 : ℚ) ≤ 1 - (Monocr.levenshtein predicted ground_truth : ℚ)
          / ((max predicted.data.length ground_truth.data.length : ℕ) : ℚ) := by
        linarith
      nlinarith
    have hacc : Monocr.calculate_accuracy predicted ground_truth
        = ((⌊(1 - (Monocr.levenshtein predicted ground_truth : ℚ)
              / ((max predicted.data.length ground_truth.data.length : ℕ) : ℚ))
            * 100 * 100 + 1 / 2⌋ : ℤ) : ℚ) / 100 := by
      simp only [Monocr.calculate_accuracy]
      rw [if_neg hg, if_neg hp, if_neg (Nat.pos_iff_ne_zero.mp hm)]
      unfold Monocr.f64Round
      rw [if_pos hv0]
    refine ⟨hleast, hacc, ?_, ?_⟩
    · rw [hacc]
      have : (0 : ℤ) ≤ ⌊(1 - (Monocr.levenshtein predicted ground_truth : ℚ)
          / ((max predicted.data.length ground_truth.data.length : ℕ) : ℚ))
            * 100 * 100 + 1 / 2⌋ :=
        Int.floor_nonneg.mpr (by linarith)
      positivity
    · rw [hacc]
      have hvle : (1 - (Monocr.levenshtein predicted ground_truth : ℚ)
          / ((max predicted.data.length ground_truth.data.length : ℕ) : ℚ))
            * 100 * 100 ≤ 10000 := by
        nlinarith
      have hfl : ⌊(1 - (Monocr.levenshtein predicted ground_truth : ℚ)
          / ((max predicted.data.length ground_truth.data.length : ℕ) : ℚ))
            * 100 * 100 + 1 / 2⌋ < 10001 := by
        rw [Int.floor_lt]
        have hcast : ((10001 : ℤ) : ℚ) = 10001 := by norm_num
        rw [hcast]
        linarith
      rw [div_le_iff₀ (by norm_num : (0 : ℚ) < 100)]
      have : (⌊(1 - (Monocr.levenshtein predicted ground_truth : ℚ)
          / ((max predicted.data.length ground_truth.data.length : ℕ) : ℚ))
            * 100 * 100 + 1 / 2⌋ : ℤ) ≤ 10000 := by omega
      calc ((⌊(1 - (Monocr.levenshtein predicted ground_truth : ℚ)
          / ((max predicted.data.length ground_truth.data.length : ℕ) : ℚ))
            * 100 * 100 + 1 / 2⌋ : ℤ) : ℚ) ≤ ((10000 : ℤ) : ℚ) := by
              exact_mod_cast this
        _ = 100 * 100 := by norm_num

/-- C2 witness: at `predicted = "a"`, `ground_truth = "a"` both emptiness
hypotheses are discharged and the theorem yields the distance characterization,
the rounded formula and the `[0, 100]` bounds at a concrete input. -/
theorem claim_C2_witness :
    ("a" : String) ≠ "" ∧
    (IsLeast {n | Monocr.EditDistSpec ("a" : String).data ("a" : String).data n}
        (Monocr.levenshtein "a" "a") ∧
      Monocr.calculate_accuracy "a" "a"
        = ((⌊(1 - (Monocr.levenshtein "a" "a" : ℚ)
              / ((max ("a" : String).data.length ("a" : String).data.length : ℕ) : ℚ))
            * 100 * 100 + 1 / 2⌋ : ℤ) : ℚ) / 100 ∧
      0 ≤ Monocr.calculate_accuracy "a" "a" ∧
      Monocr.calculate_accuracy "a" "a" ≤ 100) :=
  ⟨by decide, (claim_C2 "a" "a").2.2 (by decide) (by decide)⟩

/-! ### The smoothing window -/

/-- The in-bounds window indices are exactly the rows within distance
`half` of `i`: the source's iterate-window-and-bounds-check loop equals a
filter of the row range. -/
theorem smoothWindowIdx_eq_filter (height half i : ℕ) :
    Monocr.smoothWindowIdx height half i
      = (List.range height).filter
          (fun (j : ℕ) => decide ((i : ℤ) - half ≤ (j : ℤ)) && decide ((j : ℤ) ≤ (i : ℤ) + half)) := by
  haveI : IsAntisymm ℕ (· < ·) :=
    ⟨fun a b h h' => absurd (lt_trans h h') (lt_irrefl a)⟩
  have hsortR : List.Pairwise (· < ·) ((List.range height).filter
      (fun (j : ℕ) => decide ((i : ℤ) - half ≤ (j : ℤ)) && decide ((j : ℤ) ≤ (i : ℤ) + half))) :=
    (List.pairwise_lt_range height).filter _
  have hsortL : List.Pairwise (· < ·) (Monocr.smoothWindowIdx height half i) := by
    unfold Monocr.smoothWindowIdx
    rw [List.pairwise_filterMap]
    refine (List.pairwise_lt_range _).imp ?_
    intro a b hab x hx y hy
    dsimp only at hx hy
    by_cases hca : 0 ≤ (i : ℤ) - half + a ∧ (i : ℤ) - half + a < height
    · rw [if_pos hca] at hx
      by_cases hcb : 0 ≤ (i : ℤ) - half + b ∧ (i : ℤ) - half + b < height
      · rw [if_pos hcb] at hy
        simp only [Option.mem_def, Option.some.injEq] at hx hy
        omega
      · rw [if_neg hcb] at hy
        exact absurd hy (by simp)
    · rw [if_neg hca] at hx
      exact absurd hx (by simp)
  have hmem : ∀ x, x ∈ Monocr.smoothWindowIdx height half i ↔
      x ∈ (List.range height).filter
        (fun (j : ℕ) => decide ((i : ℤ) - half ≤ (j : ℤ)) && decide ((j : ℤ) ≤ (i : ℤ) + half)) := by
    intro x
    constructor
    · intro hx
      unfold Monocr.smoothWindowIdx at hx
      obtain ⟨d, hd, hfd⟩ := List.mem_filterMap.mp hx
      rw [List.mem_range] at hd
      dsimp only at hfd
      by_cases hc : 0 ≤ (i : ℤ) - half + d ∧ (i : ℤ) - half + d < height
      · rw [if_pos hc] at hfd
        simp only [Option.some.injEq] at hfd
        simp only [List.mem_filter, List.mem_range, Bool.and_eq_true,
          decide_eq_true_eq]
        omega
      · rw [if_neg hc] at hfd
        exact absurd hfd (by simp)
    · intro hx
      simp only [List.mem_filter, List.mem_range, Bool.and_eq_true,
        decide_eq_true_eq] at hx
      unfold Monocr.smoothWindowIdx
      set d : ℕ := x + half - i with hdd
      have hd1 : d ∈ List.range (2 * half + 1) := List.mem_range.mpr (by omega)
      have hfd : ((fun d : ℕ =>
          let j : ℤ := (i : ℤ) - (half : ℤ) + (d : ℤ)
          if 0 ≤ j ∧ j < (height : ℤ) then some j.toNat else none) d) = some x := by
        dsimp only
        have hj : (i : ℤ) - (half : ℤ) + (d : ℤ) = (x : ℤ) := by omega
        rw [hj, if_pos ⟨by omega, by omega⟩]
        simp
      exact List.mem_filterMap.mpr ⟨d, hd1, hfd⟩
  have hnodL : (Monocr.smoothWindowIdx height half i).Nodup := hsortL.imp ne_of_lt
  have hnodR : ((List.range height).filter
      (fun (j : ℕ) => decide ((i : ℤ) - half ≤ (j : ℤ)) && decide ((j : ℤ) ≤ (i : ℤ) + half))).Nodup :=
    hsortR.imp ne_of_lt
  exact List.eq_of_perm_of_sorted
    ((List.perm_ext_iff_of_nodup hnodL hnodR).mpr hmem) hsortL hsortR

/-- C5 counterexample: with `smooth_window = 2` (> 1) on the histogram
`[0, 0, 6]`, the smoothed value at row 1 is `2 = (0 + 0 + 6) / 3`, an average
of **three** rows (`2 * (2 / 2) + 1`); no moving average of width 2 over
consecutive in-bounds rows containing row 1 can produce it (the two candidate
windows average to 0 and 3), refuting "a centered moving average of width
`smooth_window`" as stated. -/
theorem claim_C5_cex :
    (Monocr.smooth_histogram 2 [0, 0, 6]).getD 1 0 = 2 ∧
    (∀ j : ℕ, j < 2 →
      (([(0 : ℚ), 0, 6]).getD j 0 + ([(0 : ℚ), 0, 6]).getD (j + 1) 0) / 2
        ≠ (Monocr.smooth_histogram 2 [0, 0, 6]).getD 1 0) := by
  have hval : (Monocr.smooth_histogram 2 [0, 0, 6]).getD 1 0 = 2 := by
    have hidx : Monocr.smoothWindowIdx ([(0 : ℚ), 0, 6].length) (2 / 2) 1
        = [0, 1, 2] := by decide
    unfold Monocr.smooth_histogram
    rw [List.getD_eq_getElem?_getD, List.getElem?_map,
      List.getElem?_range (by norm_num)]
    simp only [Option.map_some', Option.getD_some]
    rw [hidx]
    norm_num
  refine ⟨hval, ?_⟩
  intro j hj
  rw [hval]
  interval_cases j <;>
    norm_num [List.getD_cons_zero, List.getD_cons_succ]

/-- C5 (amended): when `smooth_window > 1`, segmentation replaces the
histogram by the centered moving average over the in-bounds rows within
distance `⌊smooth_window / 2⌋` of each row — a window of width
`2 * ⌊smooth_window / 2⌋ + 1`, which equals `smooth_window` only for odd
`smooth_window` — with no wraparound and no zero-padding (the divisor is the
in-bounds count, never zero); when `smooth_window ≤ 1` the histogram is left
unchanged. -/
theorem claim_C5 (p : Monocr.LineSegmenter) (hist : List ℚ) :
    (1 < p.smooth_window →
      Monocr.segmentSmoothed p hist = Monocr.smooth_histogram p.smooth_window hist ∧
      (∀ i < hist.length,
        0 < ((List.range hist.length).filter
            (fun (j : ℕ) => decide ((i : ℤ) - ((p.smooth_window / 2 : ℕ) : ℤ) ≤ (j : ℤ)) &&
              decide ((j : ℤ) ≤ (i : ℤ) + ((p.smooth_window / 2 : ℕ) : ℤ)))).length ∧
        (Monocr.smooth_histogram p.smooth_window hist).getD i 0
          = (((List.range hist.length).filter
              (fun (j : ℕ) => decide ((i : ℤ) - ((p.smooth_window / 2 : ℕ) : ℤ) ≤ (j : ℤ)) &&
                decide ((j : ℤ) ≤ (i : ℤ) + ((p.smooth_window / 2 : ℕ) : ℤ)))).map
              (fun j => hist.getD j 0)).sum
            / ((((List.range hist.length).filter
              (fun (j : ℕ) => decide ((i : ℤ) - ((p.smooth_window / 2 : ℕ) : ℤ) ≤ (j : ℤ)) &&
                decide ((j : ℤ) ≤ (i : ℤ) + ((p.smooth_window / 2 : ℕ) : ℤ)))).length : ℕ) : ℚ))) ∧
    (p.smooth_window ≤ 1 → Monocr.segmentSmoothed p hist = hist) := by
  constructor
  · intro hw
    constructor
    · unfold Monocr.segmentSmoothed
      rw [if_pos hw]
    · intro i hi
      have hmem : i ∈ (List.range hist.length).filter
          (fun (j : ℕ) => decide ((i : ℤ) - ((p.smooth_window / 2 : ℕ) : ℤ) ≤ (j : ℤ)) &&
            decide ((j : ℤ) ≤ (i : ℤ) + ((p.smooth_window / 2 : ℕ) : ℤ))) := by
        rw [List.mem_filter]
        refine ⟨List.mem_range.mpr hi, ?_⟩
        simp only [Bool.and_eq_true, decide_eq_true_eq]
        omega
      have hpos : 0 < ((List.range hist.length).filter
          (fun (j : ℕ) => decide ((i : ℤ) - ((p.smooth_window / 2 : ℕ) : ℤ) ≤ (j : ℤ)) &&
            decide ((j : ℤ) ≤ (i : ℤ) + ((p.smooth_window / 2 : ℕ) : ℤ)))).length :=
        List.length_pos.mpr (List.ne_nil_of_mem hmem)
      refine ⟨hpos, ?_⟩
      unfold Monocr.smooth_histogram
      rw [List.getD_eq_getElem?_getD, List.getElem?_map, List.getElem?_range hi]
      simp only [Option.map_some', Option.getD_some]
      rw [smoothWindowIdx_eq_filter]
      rw [if_pos hpos]
  · intro hw
    unfold Monocr.segmentSmoothed
    rw [if_neg (not_lt.mpr hw)]

/-- Entries of an all-zero list are read back as zero by `getD`. -/
theorem getD_zero_of_all_zero {l : List ℚ} (hl : ∀ v ∈ l, v = 0) (j : ℕ) :
    l.getD j 0 = 0 := by
  rw [List.getD_eq_getElem?_getD]
  cases hj : l[j]? with
  | none => rfl
  | some v =>
      have hv : v ∈ l := List.getElem?_mem hj
      simp [hl v hv]

/-- C8: segmenting a page with no ink pixel (every intensity `≥ 128`, so no
row has positive projection density) returns the empty list as a successful
result — the early return of `segment`, not an error. -/
theorem claim_C8 (p : Monocr.LineSegmenter) (img : Monocr.GrayImage)
    (h : ∀ x y, 128 ≤ (img.pixel x y : ℕ)) :
    Monocr.segment p img = [] := by
  have hink : ∀ x y, Monocr.inkAt img x y = false := by
    intro x y
    unfold Monocr.inkAt
    exact decide_eq_false (not_lt.mpr (h x y))
  have hhist : ∀ v ∈ Monocr.pageHist img, v = 0 := by
    intro v hv
    unfold Monocr.pageHist at hv
    obtain ⟨y, hy, rfl⟩ := List.mem_map.mp hv
    unfold Monocr.histRow
    have hfil : (List.range img.width).filter (fun x => Monocr.inkAt img x y) = [] :=
      List.filter_eq_nil.mpr (fun a _ => by rw [hink]; simp)
    rw [hfil]
    rfl
  have hsm : ∀ v ∈ Monocr.segmentSmoothed p (Monocr.pageHist img), v = 0 := by
    unfold Monocr.segmentSmoothed
    split
    · intro v hv
      unfold Monocr.smooth_histogram at hv
      obtain ⟨i, hi, rfl⟩ := List.mem_map.mp hv
      dsimp only
      split
      · rw [List.sum_eq_zero, zero_div]
        intro w hw
        obtain ⟨j, hj, rfl⟩ := List.mem_map.mp hw
        exact getD_zero_of_all_zero hhist j
      · rfl
    · exact hhist
  have hnz : (Monocr.segmentSmoothed p (Monocr.pageHist img)).filter
      (fun v => decide (0 < v)) = [] :=
    List.filter_eq_nil.mpr (fun v hv => by rw [hsm v hv]; simp)
  unfold Monocr.segment Monocr.segmentRegions
  dsimp only
  rw [hnz]
  simp

/-- C8 witness: the 2×2 all-white page segments to the empty list. -/
theorem claim_C8_witness :
    Monocr.segment { min_line_height := 1, smooth_window := 1 } Monocr.whiteImg
      = [] :=
  claim_C8 { min_line_height := 1, smooth_window := 1 } Monocr.whiteImg
    (fun x y => by show (128 : ℕ) ≤ ((255 : Fin 256) : ℕ); decide)

/-! ### Region-scan invariants -/

theorem regionStep_none_true {isText : ℕ → Bool} {m : ℕ}
    {st : Option ℕ × List (ℕ × ℕ)} {y : ℕ}
    (h1 : st.1 = none) (h2 : isText y = true) :
    Monocr.regionStep isText m st y = (some y, st.2) := by
  unfold Monocr.regionStep
  rw [h1, h2]

theorem regionStep_none_false {isText : ℕ → Bool} {m : ℕ}
    {st : Option ℕ × List (ℕ × ℕ)} {y : ℕ}
    (h1 : st.1 = none) (h2 : isText y = false) :
    Monocr.regionStep isText m st y = st := by
  unfold Monocr.regionStep
  rw [h1, h2]

theorem regionStep_some_true {isText : ℕ → Bool} {m : ℕ}
    {st : Option ℕ × List (ℕ × ℕ)} {y s : ℕ}
    (h1 : st.1 = some s) (h2 : isText y = true) :
    Monocr.regionStep isText m st y = st := by
  unfold Monocr.regionStep
  rw [h1, h2]

theorem regionStep_some_false {isText : ℕ → Bool} {m : ℕ}
    {st : Option ℕ × List (ℕ × ℕ)} {y s : ℕ}
    (h1 : st.1 = some s) (h2 : isText y = false) :
    Monocr.regionStep isText m st y
      = (none, if m ≤ y - s then st.2 ++ [(s, y)] else st.2) := by
  unfold Monocr.regionStep
  rw [h1, h2]

/-- Invariant of the region-scan fold after processing rows `0..height-1`:
the closed regions are ordered (`end ≤` next `start`), well-formed, of
sufficient height, bounded by the processed prefix, and an open start lies
below the processed prefix with every closed region ending at or before it. -/
theorem regionFold_inv (isText : ℕ → Bool) (m : ℕ) : ∀ height : ℕ,
    List.Pairwise (fun a b => a.2 ≤ b.1)
      (((List.range height).foldl (Monocr.regionStep isText m) (none, [])).2) ∧
    (∀ r ∈ ((List.range height).foldl (Monocr.regionStep isText m) (none, [])).2,
      r.1 < r.2 ∧ m ≤ r.2 - r.1 ∧ r.2 ≤ height) ∧
    (∀ s, ((List.range height).foldl (Monocr.regionStep isText m) (none, [])).1
        = some s →
      s < height ∧
      ∀ r ∈ ((List.range height).foldl (Monocr.regionStep isText m) (none, [])).2,
        r.2 ≤ s) := by
  intro height
  induction height with
  | zero =>
      refine ⟨List.Pairwise.nil, fun r hr => absurd hr (by simp), fun s hs => ?_⟩
      exact absurd hs (by simp [List.range_zero])
  | succ n ih =>
      obtain ⟨ihp, ihr, iho⟩ := ih
      rw [List.range_succ, List.foldl_append, List.foldl_cons, List.foldl_nil]
      set st := (List.range n).foldl (Monocr.regionStep isText m) (none, []) with hst
      rcases h1 : st.1 with - | s
      · rcases h2 : isText n with - | -
        · rw [regionStep_none_false h1 h2]
          refine ⟨ihp, fun r hr => ?_, fun s hs => absurd (h1 ▸ hs) (by simp)⟩
          obtain ⟨ha, hb, hc⟩ := ihr r hr
          exact ⟨ha, hb, Nat.le_succ_of_le hc⟩
        · rw [regionStep_none_true h1 h2]
          refine ⟨ihp, fun r hr => ?_, fun s hs => ?_⟩
          · obtain ⟨ha, hb, hc⟩ := ihr r hr
            exact ⟨ha, hb, Nat.le_succ_of_le hc⟩
          · simp only [Option.some.injEq] at hs
            subst hs
            exact ⟨Nat.lt_succ_self n, fun r hr => (ihr r hr).2.2⟩
      · rcases h2 : isText n with - | -
        · rw [regionStep_some_false h1 h2]
          obtain ⟨hsn, hends⟩ := iho s h1
          by_cases hm : m ≤ n - s
          · rw [if_pos hm]
            refine ⟨?_, fun r hr => ?_, fun s' hs' => by simp at hs'⟩
            · rw [List.pairwise_append]
              refine ⟨ihp, List.pairwise_singleton _ _, fun a ha b hb => ?_⟩
              rw [List.mem_singleton] at hb
              subst hb
              exact hends a ha
            · rw [List.mem_append, List.mem_singleton] at hr
              rcases hr with hr | hr
              · obtain ⟨ha, hb, hc⟩ := ihr r hr
                exact ⟨ha, hb, Nat.le_succ_of_le hc⟩
              · subst hr
                exact ⟨hsn, hm, Nat.le_succ n⟩
          · rw [if_neg hm]
            refine ⟨ihp, fun r hr => ?_, fun s' hs' => by simp at hs'⟩
            obtain ⟨ha, hb, hc⟩ := ihr r hr
            exact ⟨ha, hb, Nat.le_succ_of_le hc⟩
        · rw [regionStep_some_true h1 h2]
          obtain ⟨hsn, hends⟩ := iho s h1
          refine ⟨ihp, fun r hr => ?_, fun s' hs' => ?_⟩
          · obtain ⟨ha, hb, hc⟩ := ihr r hr
            exact ⟨ha, hb, Nat.le_succ_of_le hc⟩
          · rw [h1] at hs'
            simp only [Option.some.injEq] at hs'
            subst hs'
            exact ⟨Nat.lt_succ_of_lt hsn, hends⟩

/-- The invariant carried to the region list returned by `findRegions`. -/
theorem findRegions_inv (isText : ℕ → Bool) (m height : ℕ) :
    List.Pairwise (fun a b => a.2 ≤ b.1) (Monocr.findRegions isText m height) ∧
    ∀ r ∈ Monocr.findRegions isText m height,
      r.1 < r.2 ∧ m ≤ r.2 - r.1 ∧ r.2 ≤ height := by
  obtain ⟨ihp, ihr, iho⟩ := regionFold_inv isText m height
  unfold Monocr.findRegions
  dsimp only
  rcases h1 : ((List.range height).foldl (Monocr.regionStep isText m) (none, [])).1
    with - | s
  · exact ⟨ihp, ihr⟩
  · obtain ⟨hsh, hends⟩ := iho s h1
    dsimp only
    by_cases hm : m ≤ height - s
    · rw [if_pos hm]
      refine ⟨?_, fun r hr => ?_⟩
      · rw [List.pairwise_append]
        refine ⟨ihp, List.pairwise_singleton _ _, fun a ha b hb => ?_⟩
        rw [List.mem_singleton] at hb
        subst hb
        exact hends a ha
      · rw [List.mem_append, List.mem_singleton] at hr
        rcases hr with hr | hr
        · exact ihr r hr
        · subst hr
          exact ⟨hsh, hm, le_refl height⟩
    · rw [if_neg hm]
      exact ⟨ihp, ihr⟩

/-- The region invariant at the `segment` level: `segmentRegions` yields
ordered, well-formed regions of sufficient height within the page. -/
theorem segmentRegions_inv (p : Monocr.LineSegmenter) (img : Monocr.GrayImage) :
    List.Pairwise (fun a b => a.2 ≤ b.1) (Monocr.segmentRegions p img) ∧
    ∀ r ∈ Monocr.segmentRegions p img,
      r.1 < r.2 ∧ p.min_line_height ≤ r.2 - r.1 ∧ r.2 ≤ img.height := by
  unfold Monocr.segmentRegions
  dsimp only
  split
  · exact ⟨List.Pairwise.nil, fun r hr => absurd hr (by simp)⟩
  · exact findRegions_inv _ _ _

/-- A fold preserves a property its step preserves. -/
theorem foldl_preserve {α β : Type} (P : β → Prop) (op : β → α → β) :
    ∀ (l : List α) (b : β), P b → (∀ b a, P b → a ∈ l → P (op b a)) →
      P (l.foldl op b) := by
  intro l
  induction l with
  | nil => intro b hb _; exact hb
  | cons a l ih =>
      intro b hb hstep
      rw [List.foldl_cons]
      exact ih _ (hstep b a hb (List.mem_cons_self a l))
        (fun b' a' hb' ha' => hstep b' a' hb' (List.mem_cons_of_mem a ha'))

/-- The ink-bounds scan either reports no ink (state unchanged from the
initializer) or returns `x_min ≤ x_max < width`. -/
theorem lineBounds_spec (img : Monocr.GrayImage) (rs re : ℕ) :
    Monocr.lineBounds img rs re = (img.width, 0, false) ∨
    ((Monocr.lineBounds img rs re).2.2 = true ∧
      (Monocr.lineBounds img rs re).1 ≤ (Monocr.lineBounds img rs re).2.1 ∧
      (Monocr.lineBounds img rs re).2.1 < img.width) := by
  unfold Monocr.lineBounds
  refine foldl_preserve
    (fun b => b = (img.width, 0, false) ∨
      (b.2.2 = true ∧ b.1 ≤ b.2.1 ∧ b.2.1 < img.width)) _ _ _ (Or.inl rfl) ?_
  intro acc dy hacc _
  refine foldl_preserve
    (fun b => b = (img.width, 0, false) ∨
      (b.2.2 = true ∧ b.1 ≤ b.2.1 ∧ b.2.1 < img.width)) _ _ _ hacc ?_
  intro acc2 x hacc2 hx
  rw [List.mem_range] at hx
  by_cases hink : Monocr.inkAt img x (rs + dy) = true
  · rw [if_pos hink]
    rcases hacc2 with h0 | ⟨-, h1, h2⟩
    · rw [h0]
      refine Or.inr ⟨rfl, ?_, ?_⟩ <;> dsimp only <;> omega
    · refine Or.inr ⟨rfl, ?_, ?_⟩ <;> dsimp only <;> omega
  · rw [if_neg hink]
    exact hacc2

/-- The bounding box produced by `extract_line` records the padded top
`r_start - 4` (`ℕ` subtraction is the source's `saturating_sub`). -/
theorem extract_line_y {img : Monocr.GrayImage} {rs re : ℕ}
    {seg : Monocr.LineSegment}
    (h : Monocr.extract_line img rs re = some seg) :
    seg.bbox.y = rs - 4 := by
  unfold Monocr.extract_line at h
  dsimp only at h
  by_cases hb : (Monocr.lineBounds img rs re).2.2 = false
  · rw [if_pos hb] at h
    exact absurd h (by simp)
  · rw [if_neg hb] at h
    simp only [Option.some.injEq] at h
    subst h
    rfl

/-- The padded, clamped box of `extract_line` lies within the page. -/
theorem extract_line_bounds {img : Monocr.GrayImage} {rs re : ℕ}
    {seg : Monocr.LineSegment}
    (h : Monocr.extract_line img rs re = some seg)
    (hrs : rs < re) (hre : re ≤ img.height) :
    seg.bbox.x + seg.bbox.w ≤ img.width ∧
    seg.bbox.y + seg.bbox.h ≤ img.height := by
  unfold Monocr.extract_line at h
  dsimp only at h
  by_cases hb : (Monocr.lineBounds img rs re).2.2 = false
  · rw [if_pos hb] at h
    exact absurd h (by simp)
  · rw [if_neg hb] at h
    simp only [Option.some.injEq] at h
    subst h
    rcases lineBounds_spec img rs re with h0 | ⟨-, h1, h2⟩
    · rw [h0] at hb
      exact absurd rfl hb
    · constructor <;> dsimp only <;> omega

/-- C6: every `BBox` returned by `segment` for a page of dimensions
`width × height` satisfies `0 ≤ x`, `0 ≤ y`, `x + w ≤ width` and
`y + h ≤ height`: the padded, clamped box lies within the source page. -/
theorem claim_C6 (p : Monocr.LineSegmenter) (img : Monocr.GrayImage) :
    ∀ seg ∈ Monocr.segment p img,
      0 ≤ seg.bbox.x ∧ 0 ≤ seg.bbox.y ∧
      seg.bbox.x + seg.bbox.w ≤ img.width ∧
      seg.bbox.y + seg.bbox.h ≤ img.height := by
  intro seg hseg
  unfold Monocr.segment at hseg
  obtain ⟨r, hr, hex⟩ := List.mem_filterMap.mp hseg
  obtain ⟨-, hinv⟩ := segmentRegions_inv p img
  obtain ⟨h1, -, h3⟩ := hinv r hr
  obtain ⟨hx, hy⟩ := extract_line_bounds hex h1 h3
  exact ⟨Nat.zero_le _, Nat.zero_le _, hx, hy⟩

/-- C4 (amended): the underlying pre-padding regions found by `segment` are
strictly ordered by increasing start row and each has pre-padding height
(`end - start`) at least `min_line_height`; every returned line arises from
such a region; and the returned list is ordered by **nondecreasing** (not
always strictly increasing) bounding-box top row `y`, since the 4-pixel
padding is clamped at the top edge (`y = start - 4` saturating). -/
theorem claim_C4 (p : Monocr.LineSegmenter) (img : Monocr.GrayImage) :
    (∀ r ∈ Monocr.segmentRegions p img,
      r.1 < r.2 ∧ p.min_line_height ≤ r.2 - r.1 ∧ r.2 ≤ img.height) ∧
    List.Pairwise (fun r s => r.1 < s.1) (Monocr.segmentRegions p img) ∧
    (∀ seg ∈ Monocr.segment p img, ∃ r ∈ Monocr.segmentRegions p img,
      Monocr.extract_line img r.1 r.2 = some seg ∧
      p.min_line_height ≤ r.2 - r.1 ∧ seg.bbox.y = r.1 - 4) ∧
    List.Pairwise (fun a b => a.bbox.y ≤ b.bbox.y) (Monocr.segment p img) := by
  obtain ⟨hp, hinv⟩ := segmentRegions_inv p img
  refine ⟨hinv, ?_, ?_, ?_⟩
  · refine List.Pairwise.imp_of_mem ?_ hp
    intro a b ha hb hab
    have h1 := (hinv a ha).1
    omega
  · intro seg hseg
    unfold Monocr.segment at hseg
    obtain ⟨r, hr, hex⟩ := List.mem_filterMap.mp hseg
    exact ⟨r, hr, hex, (hinv r hr).2.1, extract_line_y hex⟩
  · unfold Monocr.segment
    rw [List.pairwise_filterMap]
    refine List.Pairwise.imp_of_mem ?_ hp
    intro r s hr hs hrs a ha b hb
    rw [Option.mem_def] at ha hb
    have hya : a.bbox.y = r.1 - 4 := extract_line_y ha
    have hyb : b.bbox.y = s.1 - 4 := extract_line_y hb
    have h1 := (hinv r hr).1
    omega

/-! ### A concrete segmentation of the 1×3 two-line page -/

theorem pageHist_imgCex : Monocr.pageHist Monocr.imgCex = [1, 0, 1] := by decide

theorem filter_pos_cex :
    ([1, 0, 1] : List ℚ).filter (fun v => decide (0 < v)) = [1, 1] := by decide

theorem findRegions_cex3 (f : ℕ → Bool) (h0 : f 0 = true) (h1 : f 1 = false)
    (h2 : f 2 = true) : Monocr.findRegions f 1 3 = [(0, 1), (2, 3)] := by
  unfold Monocr.findRegions
  have hr : List.range 3 = [0, 1, 2] := rfl
  rw [hr]
  simp only [List.foldl_cons, List.foldl_nil]
  simp only [Monocr.regionStep, h0, h1, h2]
  norm_num

theorem segmentRegions_cex :
    Monocr.segmentRegions { min_line_height := 1, smooth_window := 1 } Monocr.imgCex
      = [(0, 1), (2, 3)] := by
  unfold Monocr.segmentRegions
  dsimp only
  rw [pageHist_imgCex]
  have hsm : Monocr.segmentSmoothed
      { min_line_height := 1, smooth_window := 1 } [1, 0, 1] = [1, 0, 1] := rfl
  rw [hsm, filter_pos_cex]
  rw [if_neg (by simp)]
  refine findRegions_cex3 _ ?_ ?_ ?_
  · simp only [List.getD_cons_zero, decide_eq_true_eq]
    norm_num
  · simp only [List.getD_cons_succ, List.getD_cons_zero, decide_eq_false_iff_not]
    norm_num
  · simp only [List.getD_cons_succ, List.getD_cons_zero, decide_eq_true_eq]
    norm_num

/-- C4 counterexample: on the 1×3 page with ink rows 0 and 2, parameters
`min_line_height = 1`, `smooth_window = 1`, `segment` returns two lines whose
padded bounding boxes both have top row `y = 0` (the 4-pixel padding clamps at
the top edge), so the returned list is **not** strictly ordered by increasing
bounding-box top row. -/
theorem claim_C4_cex :
    (Monocr.segment { min_line_height := 1, smooth_window := 1 } Monocr.imgCex).map
        (fun s => s.bbox.y) = [0, 0] ∧
    ¬ List.Pairwise (fun a b => a.bbox.y < b.bbox.y)
        (Monocr.segment { min_line_height := 1, smooth_window := 1 } Monocr.imgCex) := by
  have hseg : Monocr.segment { min_line_height := 1, smooth_window := 1 } Monocr.imgCex
      = [(0, 1), (2, 3)].filterMap
          (fun r => Monocr.extract_line Monocr.imgCex r.1 r.2) := by
    unfold Monocr.segment
    rw [segmentRegions_cex]
  have hmap : (Monocr.segment { min_line_height := 1, smooth_window := 1 }
      Monocr.imgCex).map (fun s => s.bbox.y) = [0, 0] := by
    rw [hseg]
    rfl
  refine ⟨hmap, fun hp => ?_⟩
  have hp' : List.Pairwise (· < ·)
      ((Monocr.segment { min_line_height := 1, smooth_window := 1 }
        Monocr.imgCex).map (fun s => s.bbox.y)) := List.pairwise_map.mpr hp
  rw [hmap] at hp'
  simp at hp'

/-- C6 witness: the first line of the segmented 1×3 two-line page is a member
of the returned list and its box lies within the page. -/
theorem claim_C6_witness :
    Monocr.lineSegCex ∈ Monocr.segment
      { min_line_height := 1, smooth_window := 1 } Monocr.imgCex ∧
    (0 ≤ Monocr.lineSegCex.bbox.x ∧ 0 ≤ Monocr.lineSegCex.bbox.y ∧
      Monocr.lineSegCex.bbox.x + Monocr.lineSegCex.bbox.w ≤ Monocr.imgCex.width ∧
      Monocr.lineSegCex.bbox.y + Monocr.lineSegCex.bbox.h ≤ Monocr.imgCex.height) := by
  have hm : Monocr.lineSegCex ∈ Monocr.segment
      { min_line_height := 1, smooth_window := 1 } Monocr.imgCex := by
    unfold Monocr.segment
    rw [segmentRegions_cex]
    exact List.mem_filterMap.mpr ⟨(0, 1), by simp, rfl⟩
  exact ⟨hm, claim_C6 { min_line_height := 1, smooth_window := 1 }
    Monocr.imgCex Monocr.lineSegCex hm⟩
